import Mathlib

/-!
Verification of the tuning-core canonical-key collection layer.

Shallow embedding of the three components — `Harmonic`, `Spectrum`,
`IntervalSet` — over exact rational arithmetic (`ℚ`).  The rational
primitive of the source (fraction.js) reduces every fraction to lowest
terms on construction and keys containers by the canonical "n/d" string
of the reduced fraction; Lean's `ℚ` is always in lowest terms, so the
canonical string key is modelled by the rational value itself.

Amplitude and phase are IEEE-754 doubles in the source.  Every double is
an exact rational, and the validation code only compares them (`<`,
`<=`, `>=`), operations that agree with exact rational comparison of the
represented values; they are therefore modelled as `ℚ`.  The phase bound
`2 * Math.PI` is the constant `twoPi` below, the exact rational value of
that double.

Where the source computes with the lossy `valueOf()` double of a
rational — the ratio guards of `Spectrum.transpose` and the numerator
bounds of `IntervalSet.range` — the doubles are modelled faithfully: an
executable binary64 model (`F`, `roundQ`, `valueOfQ`, …) reproduces the
round-to-nearest-even conversion, overflow to `±∞`, underflow, `NaN`,
and the separate numerator/denominator conversion of
`Fraction.prototype.valueOf()`.  `Fraction.prototype.div`'s
`DivisionByZero` throw is modelled in `fracDiv`.
-/

namespace TuningCore

-- Concrete evaluation of the binary64 model (below) reduces deep
-- fuel-driven recursion and large powers of two.
set_option maxRecDepth 100000
set_option exponentiation.threshold 10000

/-- Exact rational value of the IEEE-754 double `2 * Math.PI`
(`Math.PI` is `884279719003555 / 2^48`; doubling is exact). -/
def twoPi : ℚ := Rat.divInt 884279719003555 140737488355328

/-- A single partial: frequency as an exact rational, amplitude and
phase as (exact values of) doubles.  Mirrors the `Harmonic` class
fields `_frequency`, `_amplitude`, `_phase`. -/
structure Harmonic where
  frequency : ℚ
  amplitude : ℚ
  phase : ℚ
deriving DecidableEq, Repr

/-- The `validate()` method: throws unless `frequency > 0`,
`amplitude ∈ [0,1]`, `phase ∈ [0, 2π)`.  On success the object is
returned unchanged (fluent style). -/
def Harmonic.validate (h : Harmonic) : Except String Harmonic :=
  if h.frequency ≤ 0 then .error "Frequency must be positive"
  else if h.amplitude < 0 ∨ 1 < h.amplitude then .error "Amplitude must be between 0 and 1"
  else if h.phase < 0 ∨ twoPi ≤ h.phase then .error "Phase must be between 0 and 2π"
  else .ok h

/-- The constructor from individual parameters: store the fields, then
`validate()`. -/
def Harmonic.make (f a p : ℚ) : Except String Harmonic :=
  Harmonic.validate ⟨f, a, p⟩

/-- The invariants the spec states for a harmonic. -/
def Harmonic.Valid (h : Harmonic) : Prop :=
  0 < h.frequency ∧ 0 ≤ h.amplitude ∧ h.amplitude ≤ 1 ∧ 0 ≤ h.phase ∧ h.phase < twoPi

instance (h : Harmonic) : Decidable h.Valid := by
  unfold Harmonic.Valid
  exact inferInstance

/-- `setFrequency`: the source assigns `this._frequency = new Fraction(frequency)`
first and only then checks positivity, so a failing call leaves the
instance holding the just-committed invalid frequency.  The error value
carries the observable post-throw state. -/
def Harmonic.setFrequency (h : Harmonic) (f : ℚ) : Except (String × Harmonic) Harmonic :=
  let h1 : Harmonic := { h with frequency := f }
  if f ≤ 0 then .error ("Frequency must be positive", h1) else .ok h1

/-- `setAmplitude`: validates before committing; a failing call leaves
the instance unchanged (the error value carries the unchanged state). -/
def Harmonic.setAmplitude (h : Harmonic) (a : ℚ) : Except (String × Harmonic) Harmonic :=
  if a < 0 ∨ 1 < a then .error ("Amplitude must be between 0 and 1", h)
  else .ok { h with amplitude := a }

/-- `setPhase`: validates before committing. -/
def Harmonic.setPhase (h : Harmonic) (p : ℚ) : Except (String × Harmonic) Harmonic :=
  if p < 0 ∨ twoPi ≤ p then .error ("Phase must be between 0 and 2π", h)
  else .ok { h with phase := p }

/-- `transpose(ratio)`: `this._frequency = this._frequency.mul(ratio)`.
No validation is performed. -/
def Harmonic.transpose (h : Harmonic) (r : ℚ) : Harmonic :=
  { h with frequency := h.frequency * r }

/-- `scale(factor)`: `amplitude = max(0, min(1, amplitude * factor))`.
(The double multiplication is modelled exactly; the clamp makes the
stored value independent of rounding direction at the boundaries.) -/
def Harmonic.scale (h : Harmonic) (factor : ℚ) : Harmonic :=
  { h with amplitude := max 0 (min 1 (h.amplitude * factor)) }

/-- `clone()`: `new Harmonic(this._frequency, this._amplitude, this._phase)` —
the constructor re-validates the current fields, so cloning an invalid
harmonic throws. -/
def Harmonic.clone (h : Harmonic) : Except String Harmonic :=
  h.validate

/-- `toTransposed(ratio)`: `this.clone().transpose(ratio)`. -/
def Harmonic.toTransposed (h : Harmonic) (r : ℚ) : Except String Harmonic :=
  h.clone.map (fun h0 => h0.transpose r)

-- Sanity checks on the embedding.
example : Harmonic.make 1 1 0 = .ok ⟨1, 1, 0⟩ := by with_unfolding_all rfl
example : (Harmonic.make 1 2 0).isOk = false := by with_unfolding_all rfl
example : Harmonic.setFrequency ⟨1, 1, 0⟩ (-1) =
    .error ("Frequency must be positive", ⟨-1, 1, 0⟩) := by with_unfolding_all rfl
example : Harmonic.setAmplitude ⟨1, 1, 0⟩ 2 =
    .error ("Amplitude must be between 0 and 1", ⟨1, 1, 0⟩) := by with_unfolding_all rfl
example : Harmonic.transpose ⟨1, 1, 0⟩ (-1) = ⟨-1, 1, 0⟩ := by with_unfolding_all rfl
example : ((6 : ℚ) / 4) = 3 / 2 := by with_unfolding_all rfl

/-! ### The IEEE-754 binary64 values observed by `valueOf()` guards

`Fraction.prototype.valueOf()` computes `this.s * Number(this.n) /
Number(this.d)`: the BigInt numerator and denominator are each rounded
to a double and then divided.  `Spectrum.transpose` compares that double
against `1` and `0`, and `IntervalSet.range` multiplies it by the loop
counter and takes `Math.ceil`/`Math.floor` — all lossy operations the
model must reproduce.  A double is modelled by its exact rational value
(signed zero collapsed to `0`, which none of these guards distinguish),
`±∞`, or `NaN`. -/

inductive F where
  | finite (val : ℚ)
  | posInf
  | negInf
  | nan
deriving DecidableEq, Repr

/-- Fuel-driven ⌊log₂⌋ on naturals (the fuel makes it structurally
recursive; `nlog2 n n` is exact for every `n ≥ 1`). -/
def nlog2 : ℕ → ℕ → ℕ
  | 0, _ => 0
  | fuel + 1, n => if n ≤ 1 then 0 else nlog2 fuel (n / 2) + 1

def natLog2 (n : ℕ) : ℕ := nlog2 n n

/-- `⌊log₂ (a/b)⌋` for positive naturals `a`, `b`: the floor-log
difference is off by at most one, fixed by one exact comparison. -/
def intLog2 (a b : ℕ) : ℤ :=
  let e0 : ℤ := (natLog2 a : ℤ) - (natLog2 b : ℤ)
  if (if 0 ≤ e0 then b * 2 ^ e0.toNat ≤ a else b ≤ a * 2 ^ (-e0).toNat) then e0
  else e0 - 1

/-- Round `N / D` to the nearest natural, ties to even. -/
def roundHalfEvenNat (N D : ℕ) : ℕ :=
  let qt := N / D
  let rm := N % D
  if 2 * rm < D then qt
  else if D < 2 * rm then qt + 1
  else if qt % 2 = 0 then qt else qt + 1

/-- Round the positive rational `a / b` to the binary64 grid (round to
nearest, ties to even; subnormals below `2^-1022`, least grid step
`2^-1074`): the exact value of the resulting double, or `none` for
overflow to `+∞` (a rounded magnitude of `2^1024` or more). -/
def roundPosRat (a b : ℕ) : Option ℚ :=
  let e := intLog2 a b
  let u : ℤ := if e < -1022 then -1074 else e - 52
  let m : ℕ := roundHalfEvenNat (a * 2 ^ (-u).toNat) (b * 2 ^ u.toNat)
  if 2 ^ (1024 - u).toNat ≤ m then none
  else some (Rat.divInt ((m : ℤ) * 2 ^ u.toNat) ((2 : ℤ) ^ (-u).toNat))

/-- Round a rational to binary64 (`Number` applied to a BigInt, or the
result of a double arithmetic operation). -/
def roundQ (q : ℚ) : F :=
  if q = 0 then .finite 0
  else if 0 < q then
    match roundPosRat q.num.toNat q.den with
    | some v => .finite v
    | none => .posInf
  else
    match roundPosRat (-q.num).toNat q.den with
    | some v => .finite (-v)
    | none => .negInf

/-- IEEE equality (`===` on doubles): `NaN` equals nothing. -/
def fEq : F → F → Bool
  | .finite a, .finite b => a == b
  | .posInf, .posInf => true
  | .negInf, .negInf => true
  | _, _ => false

/-- IEEE `<=`: false on `NaN` operands. -/
def fLe : F → F → Bool
  | .nan, _ => false
  | _, .nan => false
  | .negInf, _ => true
  | _, .posInf => true
  | .posInf, _ => false
  | .finite _, .negInf => false
  | .finite a, .finite b => a ≤ b

/-- IEEE `<`: false on `NaN` operands. -/
def fLt (a b : F) : Bool := fLe a b && !(fEq a b)

/-- IEEE multiplication: `NaN` propagates, `∞ · 0 = NaN`, finite
products are rounded once. -/
def fMul : F → F → F
  | .nan, _ => .nan
  | _, .nan => .nan
  | .posInf, .posInf => .posInf
  | .posInf, .negInf => .negInf
  | .negInf, .posInf => .negInf
  | .negInf, .negInf => .posInf
  | .posInf, .finite v => if v = 0 then .nan else if 0 < v then .posInf else .negInf
  | .negInf, .finite v => if v = 0 then .nan else if 0 < v then .negInf else .posInf
  | .finite v, .posInf => if v = 0 then .nan else if 0 < v then .posInf else .negInf
  | .finite v, .negInf => if v = 0 then .nan else if 0 < v then .negInf else .posInf
  | .finite a, .finite b => roundQ (a * b)

/-- IEEE division: `∞ / ∞ = 0/0 = NaN`, `x / ∞ = 0`, `x / 0 = ±∞`
for `x ≠ 0`, finite quotients rounded once. -/
def fDiv : F → F → F
  | .nan, _ => .nan
  | _, .nan => .nan
  | .posInf, .posInf => .nan
  | .posInf, .negInf => .nan
  | .negInf, .posInf => .nan
  | .negInf, .negInf => .nan
  | .posInf, .finite v => if 0 ≤ v then .posInf else .negInf
  | .negInf, .finite v => if 0 ≤ v then .negInf else .posInf
  | .finite _, .posInf => .finite 0
  | .finite _, .negInf => .finite 0
  | .finite a, .finite b =>
      if b = 0 then (if a = 0 then .nan else if 0 < a then .posInf else .negInf)
      else roundQ (a / b)

/-- `Fraction.prototype.valueOf()`: numerator and denominator are
converted to doubles separately, then divided — two independent
roundings, so a huge denominator underflows the quotient to `0` and a
huge numerator over a huge denominator yields `∞ / ∞ = NaN`. -/
def valueOfQ (q : ℚ) : F :=
  fDiv (roundQ (q.num : ℚ)) (roundQ (q.den : ℚ))

/-- `Math.ceil` of a double: exact on finite values (the result is an
integral double, always exactly representable), preserves `±∞`/`NaN`. -/
def fCeil : F → F
  | .finite v => .finite (⌈v⌉ : ℚ)
  | x => x

/-- `Math.floor` of a double. -/
def fFloor : F → F
  | .finite v => .finite (⌊v⌋ : ℚ)
  | x => x

/-- `Math.max(1, x)` on doubles: propagates `NaN`. -/
def fMaxOne : F → F
  | .nan => .nan
  | .posInf => .posInf
  | .negInf => .finite 1
  | .finite v => .finite (Max.max 1 v)

/-! ### The JS `Map` primitive

The containers use a `Map<string, V>` keyed by the canonical fraction
string; modelled as an insertion-ordered association list keyed by `ℚ`.
`set` replaces in place when the key is present and appends otherwise;
`delete` removes the key; `get` finds the entry. -/

def mapSet {V : Type} (l : List (ℚ × V)) (k : ℚ) (v : V) : List (ℚ × V) :=
  if l.any (fun e => e.1 = k) then
    l.map (fun e => if e.1 = k then (k, v) else e)
  else
    l ++ [(k, v)]

def mapDelete {V : Type} (l : List (ℚ × V)) (k : ℚ) : List (ℚ × V) :=
  l.filter (fun e => e.1 ≠ k)

def mapGet {V : Type} (l : List (ℚ × V)) (k : ℚ) : Option V :=
  (l.find? (fun e => e.1 = k)).map Prod.snd

/-! ### Spectrum -/

/-- A deduplicating collection of harmonics, keyed by the canonical
frequency string (`Map<string, Harmonic>` in the source). -/
structure Spectrum where
  harmonics : List (ℚ × Harmonic)
deriving DecidableEq, Repr

def Spectrum.size (s : Spectrum) : ℕ := s.harmonics.length

/-- `addHarmonic`: `this.harmonics.set(harmonic.frequencyStr, harmonic)`. -/
def Spectrum.addHarmonic (s : Spectrum) (h : Harmonic) : Spectrum :=
  ⟨mapSet s.harmonics h.frequency h⟩

/-- The raw-input overload of `add`: builds a `Harmonic` (whose
constructor validates) and inserts it. -/
def Spectrum.add (s : Spectrum) (f a p : ℚ) : Except String Spectrum :=
  (Harmonic.make f a p).map s.addHarmonic

/-- `get` with a ratio argument: resolve the canonical key. -/
def Spectrum.get (s : Spectrum) (k : ℚ) : Option Harmonic :=
  mapGet s.harmonics k

/-- `get` with a `Harmonic` argument: the key is `harmonic.frequencyStr`. -/
def Spectrum.getByHarmonic (s : Spectrum) (h : Harmonic) : Option Harmonic :=
  mapGet s.harmonics h.frequency

/-- `has` with a ratio argument. -/
def Spectrum.hasKey (s : Spectrum) (k : ℚ) : Bool :=
  (mapGet s.harmonics k).isSome

/-- `has` with a `Harmonic` argument. -/
def Spectrum.hasByHarmonic (s : Spectrum) (h : Harmonic) : Bool :=
  s.hasKey h.frequency

/-- `remove` with a ratio argument. -/
def Spectrum.removeKey (s : Spectrum) (k : ℚ) : Spectrum :=
  ⟨mapDelete s.harmonics k⟩

/-- `remove` with a `Harmonic` argument. -/
def Spectrum.removeByHarmonic (s : Spectrum) (h : Harmonic) : Spectrum :=
  s.removeKey h.frequency

/-- The comparator relation used to sort harmonics ascending by
frequency (`compareFrequency`). -/
def Harmonic.freqLE (a b : Harmonic) : Prop := a.frequency ≤ b.frequency

instance : DecidableRel Harmonic.freqLE := fun a b =>
  inferInstanceAs (Decidable (a.frequency ≤ b.frequency))

instance : IsTotal Harmonic Harmonic.freqLE :=
  ⟨fun a b => le_total a.frequency b.frequency⟩

instance : IsTrans Harmonic Harmonic.freqLE :=
  ⟨fun _ _ _ hab hbc => le_trans hab hbc⟩

/-- `getHarmonics`: snapshot of the stored values sorted ascending by
frequency. -/
def Spectrum.getHarmonics (s : Spectrum) : List Harmonic :=
  (s.harmonics.map Prod.snd).insertionSort Harmonic.freqLE

/-- `transposeHarmonic`: look the harmonic up by its canonical key,
build the transposed copy (`toTransposed` clones, which re-validates),
and re-key the entry unless the key is unchanged. -/
def Spectrum.transposeHarmonic (s : Spectrum) (h : Harmonic) (r : ℚ) : Except String Spectrum :=
  match s.get h.frequency with
  | none => .ok s
  | some oldH =>
    let oldKey := oldH.frequency
    match oldH.toTransposed r with
    | .error e => .error e
    | .ok newH =>
      let newKey := newH.frequency
      if oldKey = newKey then .ok s
      else .ok ⟨mapSet (mapDelete s.harmonics oldKey) newKey newH⟩

/-- `transpose`: the guards compare `ratioValue = r.valueOf()` — the
lossy double of the exact ratio — against `1` and `0`: no-op when
`ratioValue === 1`, throw when `ratioValue <= 0`, otherwise rekey every
harmonic, from highest to lowest when `ratioValue > 1` and from lowest
to highest otherwise.  The rekeying itself multiplies the exact
rationals. -/
def Spectrum.transpose (s : Spectrum) (r : ℚ) : Except String Spectrum :=
  let rv := valueOfQ r
  if fEq rv (F.finite 1) then .ok s
  else if fLe rv (F.finite 0) then .error "Ratio must be greater than 0"
  else
    let allH := s.getHarmonics
    if fLt (F.finite 1) rv then
      allH.reverse.foldlM (fun t h => t.transposeHarmonic h r) s
    else
      allH.foldlM (fun t h => t.transposeHarmonic h r) s

/-- The ratio's `valueOf()` double compares against `0` and `1` exactly
as the rational itself does: the domain on which `transpose` branches
correctly.  (Outside it, a double collision with `1` silently no-ops, an
underflow to `0` throws, and a `NaN` — huge numerator over huge
denominator — picks the ascending order even for an up-transpose.) -/
def valueOfFaithful (r : ℚ) : Bool :=
  (fEq (valueOfQ r) (F.finite 1) == decide (r = 1)) &&
  (fLe (valueOfQ r) (F.finite 0) == decide (r ≤ 0)) &&
  (fLt (F.finite 1) (valueOfQ r) == decide (1 < r))

/-- `clone`: rebuild an empty spectrum by `addHarmonic`-ing a clone of
each stored harmonic in iteration order (`Harmonic.clone` re-validates). -/
def Spectrum.clone (s : Spectrum) : Except String Spectrum :=
  s.harmonics.foldlM (fun t e => (e.2.clone).map t.addHarmonic) (Spectrum.mk [])

/-- Well-formedness of a spectrum, as established by its operations:
keys are distinct, each entry is keyed by its harmonic's canonical
frequency, and every stored harmonic passed validation. -/
def Spectrum.WF (s : Spectrum) : Prop :=
  (s.harmonics.map Prod.fst).Nodup ∧
  (∀ e ∈ s.harmonics, e.1 = e.2.frequency) ∧
  (∀ e ∈ s.harmonics, e.2.Valid)

instance (s : Spectrum) : Decidable s.WF := by
  unfold Spectrum.WF
  exact inferInstance

/-! ### IntervalSet

`Map<string, Fraction>` keyed by the canonical fraction string of the
stored value itself, so the key determines the value; modelled as an
insertion-ordered list of distinct rationals.  `add` of a present key
replaces the stored `Fraction` with an equal one (a no-op here). -/

structure IntervalSet where
  ratios : List ℚ
deriving DecidableEq, Repr

def IntervalSet.add (s : IntervalSet) (q : ℚ) : IntervalSet :=
  if q ∈ s.ratios then s else ⟨s.ratios ++ [q]⟩

def IntervalSet.size (s : IntervalSet) : ℕ := s.ratios.length

/-- The constructor from an initial collection: `add` each element. -/
def IntervalSet.ofList (l : List ℚ) : IntervalSet :=
  l.foldl IntervalSet.add ⟨[]⟩

/-- `getRatios`: snapshot sorted ascending by exact rational value. -/
def IntervalSet.getRatios (s : IntervalSet) : List ℚ :=
  s.ratios.insertionSort (· ≤ ·)

/-- `Fraction.prototype.div`: fraction.js throws `DivisionByZero` when
the divisor is zero; otherwise the quotient is exact. -/
def fracDiv (a b : ℚ) : Except String ℚ :=
  if b = 0 then .error "Division by Zero" else .ok (a / b)

/-- `toSweepIntervals`: `[]` for an empty set; otherwise `1` followed by
each sorted ratio divided by its predecessor via `Fraction.div` — the
call throws when a stored ratio `0` is some step's left neighbour. -/
def IntervalSet.toSweepIntervals (s : IntervalSet) : Except String (List ℚ) :=
  let r := s.getRatios
  if r.isEmpty then .ok []
  else
    ((r.zip r.tail).mapM (fun p => fracDiv p.2 p.1)).map (fun steps => 1 :: steps)

/-- The list of integers `lo, lo+1, ..., hi` (empty when `hi < lo`):
the index range of the source's `for` loops. -/
def intRange (lo hi : ℤ) : List ℤ :=
  (List.range (hi + 1 - lo).toNat).map (fun i : ℕ => lo + (i : ℤ))

/-- Body of the inner numerator loop of `range`: build `n/d` and insert
it when it passes the exact bound check. -/
def rangeStep (min max : ℚ) (d : ℤ) (t : IntervalSet) (n : ℤ) : IntervalSet :=
  let f : ℚ := (n : ℚ) / (d : ℚ)
  if min ≤ f ∧ f ≤ max then t.add f else t

/-- The numerator indices the source's inner loop visits for denominator
`d`: `Math.max(1, Math.ceil(minFraction.valueOf() * d))` up to
`Math.floor(maxFraction.valueOf() * d)` — double computations.  The loop
counter `d` is an exact integer double (valid below `2^53`, an explicit
hypothesis of the theorems).  A `NaN` bound runs the source's loop zero
times, modelled `[]`.  A `+∞` upper bound would make the source loop
forever — the one behaviour a terminating model cannot render, also
modelled `[]`; every theorem below either carries the bounds-agreement
hypothesis that excludes it or (the subset direction) is unaffected by
an empty numerator list. -/
def rangeNumerators (min max : ℚ) (d : ℤ) : List ℤ :=
  match fMaxOne (fCeil (fMul (valueOfQ min) (F.finite (d : ℚ)))),
      fFloor (fMul (valueOfQ max) (F.finite (d : ℚ))) with
  | .finite lo, .finite hi => intRange ⌈lo⌉ ⌊hi⌋
  | _, _ => []

/-- `IntervalSet.range`: for each denominator `d` from 1 to
`maxDenominator`, insert every `n/d` with `n` in the float-computed
numerator bounds (`rangeNumerators`) that passes the exact `compare`
filter of the source. -/
def IntervalSet.range (min max : ℚ) (maxDenominator : ℤ) : Except String IntervalSet :=
  if maxDenominator < 1 then .error "maxDenominator must be at least 1"
  else if max < min then .error "min must be less than or equal to max"
  else .ok <|
    (intRange 1 maxDenominator).foldl (fun s (d : ℤ) =>
      (rangeNumerators min max d).foldl (rangeStep min max d) s)
      ⟨[]⟩

def IntervalSet.WF (s : IntervalSet) : Prop := s.ratios.Nodup

instance (s : IntervalSet) : Decidable s.WF :=
  inferInstanceAs (Decidable s.ratios.Nodup)

/-! ### Lemmas about the map primitive -/

theorem find?_replace_ne {V : Type} (k : ℚ) (v : V) (k' : ℚ) (hne : k' ≠ k)
    (l : List (ℚ × V)) :
    (l.map (fun e => if e.1 = k then (k, v) else e)).find? (fun e => e.1 = k') =
      l.find? (fun e => e.1 = k') := by
  induction l with
  | nil => rfl
  | cons e l ih =>
    by_cases he : e.1 = k
    · rw [List.map_cons, if_pos he,
        List.find?_cons_of_neg _ (by simp [Ne.symm hne]),
        List.find?_cons_of_neg _ (by simp [he, Ne.symm hne]), ih]
    · rw [List.map_cons, if_neg he]
      by_cases hk' : e.1 = k'
      · rw [List.find?_cons_of_pos _ (by simp [hk']), List.find?_cons_of_pos _ (by simp [hk'])]
      · rw [List.find?_cons_of_neg _ (by simp [hk']), List.find?_cons_of_neg _ (by simp [hk']),
          ih]

theorem find?_replace_self {V : Type} (k : ℚ) (v : V) (l : List (ℚ × V))
    (hany : ∃ e ∈ l, e.1 = k) :
    (l.map (fun e => if e.1 = k then (k, v) else e)).find? (fun e => e.1 = k) =
      some (k, v) := by
  induction l with
  | nil => simp at hany
  | cons e l ih =>
    by_cases he : e.1 = k
    · rw [List.map_cons, if_pos he, List.find?_cons_of_pos _ (by simp)]
    · rw [List.map_cons, if_neg he, List.find?_cons_of_neg _ (by simp [he])]
      apply ih
      simpa [he] using hany

theorem mapGet_mapSet {V : Type} (l : List (ℚ × V)) (k : ℚ) (v : V) (k' : ℚ) :
    mapGet (mapSet l k v) k' = if k' = k then some v else mapGet l k' := by
  unfold mapSet mapGet
  by_cases hany : l.any (fun e => e.1 = k)
  · rw [if_pos hany]
    by_cases hk : k' = k
    · subst hk
      rw [find?_replace_self _ _ _ (by simpa using hany), if_pos rfl]
      rfl
    · rw [find?_replace_ne _ _ _ hk, if_neg hk]
  · rw [if_neg hany, List.find?_append]
    have hnone : l.find? (fun e => decide (e.1 = k)) = none := by
      rw [List.find?_eq_none]
      intro x hx
      simp only [List.any_eq_true, not_exists, not_and] at hany
      simpa using hany x hx
    by_cases hk : k' = k
    · subst hk
      simp [hnone]
    · simp only [if_neg hk]
      rw [List.find?_cons_of_neg _ (by simp [Ne.symm hk])]
      simp

theorem mapGet_mapDelete {V : Type} (l : List (ℚ × V)) (k k' : ℚ) :
    mapGet (mapDelete l k) k' = if k' = k then none else mapGet l k' := by
  unfold mapDelete mapGet
  by_cases hk : k' = k
  · subst hk
    rw [if_pos rfl]
    have : (l.filter (fun e => e.1 ≠ k')).find? (fun e => e.1 = k') = none := by
      rw [List.find?_eq_none]
      intro x hx
      have := List.of_mem_filter hx
      simpa using this
    simp [this]
  · rw [if_neg hk]
    induction l with
    | nil => rfl
    | cons e l ih =>
      by_cases he : e.1 = k
      · rw [List.filter_cons_of_neg (by simp [he]), ih,
          List.find?_cons_of_neg _ (by simp [he, Ne.symm hk])]
      · rw [List.filter_cons_of_pos (by simp [he])]
        by_cases hk2 : e.1 = k'
        · rw [List.find?_cons_of_pos _ (by simp [hk2]), List.find?_cons_of_pos _ (by simp [hk2])]
        · rw [List.find?_cons_of_neg _ (by simp [hk2]), List.find?_cons_of_neg _ (by simp [hk2]),
            ih]

theorem keys_mapSet_of_any {V : Type} (l : List (ℚ × V)) (k : ℚ) (v : V)
    (hany : l.any (fun e => e.1 = k)) :
    (mapSet l k v).map Prod.fst = l.map Prod.fst := by
  unfold mapSet
  rw [if_pos hany, List.map_map]
  apply List.map_congr_left
  intro e _
  by_cases h : e.1 = k <;> simp [h]

theorem nodup_keys_mapSet {V : Type} {l : List (ℚ × V)} (nd : (l.map Prod.fst).Nodup)
    (k : ℚ) (v : V) : ((mapSet l k v).map Prod.fst).Nodup := by
  by_cases hany : l.any (fun e => e.1 = k)
  · rw [keys_mapSet_of_any l k v hany]
    exact nd
  · unfold mapSet
    rw [if_neg hany, List.map_append]
    have hk : k ∉ l.map Prod.fst := by
      simp only [List.any_eq_true, decide_eq_true_eq, not_exists, not_and] at hany
      simp only [List.mem_map, not_exists, not_and]
      intro e he hek
      exact hany e he hek
    simp [List.nodup_append, nd, hk]

theorem nodup_keys_mapDelete {V : Type} {l : List (ℚ × V)} (nd : (l.map Prod.fst).Nodup)
    (k : ℚ) : ((mapDelete l k).map Prod.fst).Nodup :=
  ((List.filter_sublist l).map Prod.fst).nodup nd

theorem mem_mapSet {V : Type} {l : List (ℚ × V)} {k : ℚ} {v : V} {e : ℚ × V}
    (he : e ∈ mapSet l k v) : e ∈ l ∨ e = (k, v) := by
  unfold mapSet at he
  by_cases hany : l.any (fun x => x.1 = k)
  · rw [if_pos hany] at he
    obtain ⟨a, ha, hae⟩ := List.mem_map.1 he
    by_cases h : a.1 = k
    · right
      rw [if_pos h] at hae
      exact hae.symm
    · left
      rw [if_neg h] at hae
      exact hae ▸ ha
  · rw [if_neg hany] at he
    rcases List.mem_append.1 he with h | h
    · exact Or.inl h
    · right
      simpa using h

theorem mem_mapDelete {V : Type} {l : List (ℚ × V)} {k : ℚ} {e : ℚ × V}
    (he : e ∈ mapDelete l k) : e ∈ l :=
  List.mem_of_mem_filter he

theorem mapGet_mem {V : Type} {l : List (ℚ × V)} {k : ℚ} {v : V}
    (h : mapGet l k = some v) : (k, v) ∈ l := by
  unfold mapGet at h
  obtain ⟨e, he, hev⟩ := Option.map_eq_some'.1 h
  have h1 : e.1 = k := by simpa using List.find?_some he
  have h2 := List.mem_of_find?_eq_some he
  have : e = (k, v) := by
    cases e
    simp_all
  exact this ▸ h2

theorem mapGet_of_mem {V : Type} {l : List (ℚ × V)} (nd : (l.map Prod.fst).Nodup)
    {k : ℚ} {v : V} (hmem : (k, v) ∈ l) : mapGet l k = some v := by
  induction l with
  | nil => simp at hmem
  | cons e l ih =>
    rw [List.map_cons, List.nodup_cons] at nd
    rcases List.mem_cons.1 hmem with rfl | hmem
    · unfold mapGet
      rw [List.find?_cons_of_pos _ (by simp)]
      rfl
    · have hk : ¬(e.1 = k) := by
        intro h
        exact nd.1 (h ▸ List.mem_map.2 ⟨(k, v), hmem, rfl⟩)
      unfold mapGet
      rw [List.find?_cons_of_neg _ (by simpa using hk)]
      exact ih nd.2 hmem

theorem mapGet_eq_none {V : Type} {l : List (ℚ × V)} {k : ℚ} :
    mapGet l k = none ↔ ∀ e ∈ l, e.1 ≠ k := by
  unfold mapGet
  simp [List.find?_eq_none]

/-! ### Harmonic lemmas -/

theorem Harmonic.validate_ok {h : Harmonic} (hv : h.Valid) : h.validate = .ok h := by
  obtain ⟨h1, h2, h3, h4, h5⟩ := hv
  unfold Harmonic.validate
  rw [if_neg (not_le.2 h1), if_neg (by push_neg; exact ⟨h2, h3⟩),
    if_neg (by push_neg; exact ⟨h4, h5⟩)]

theorem Harmonic.valid_of_validate {h h' : Harmonic} (hok : h.validate = .ok h') :
    h' = h ∧ h.Valid := by
  unfold Harmonic.validate at hok
  split_ifs at hok with h1 h2 h3
  all_goals first
    | exact Except.noConfusion hok
    | (cases hok
       push_neg at h1 h2 h3
       exact ⟨rfl, h1, h2.1, h2.2, h3.1, h3.2⟩)

theorem Harmonic.toTransposed_ok {h : Harmonic} (hv : h.Valid) (r : ℚ) :
    h.toTransposed r = .ok (h.transpose r) := by
  unfold Harmonic.toTransposed Harmonic.clone
  rw [Harmonic.validate_ok hv]
  rfl

theorem Harmonic.transpose_valid {h : Harmonic} (hv : h.Valid) {r : ℚ} (hr : 0 < r) :
    (h.transpose r).Valid :=
  ⟨mul_pos hv.1 hr, hv.2.1, hv.2.2.1, hv.2.2.2.1, hv.2.2.2.2⟩

@[simp]
theorem Harmonic.transpose_frequency (h : Harmonic) (r : ℚ) :
    (h.transpose r).frequency = h.frequency * r := rfl

/-! ### Spectrum lemmas -/

theorem Spectrum.get_valid {s : Spectrum} (hWF : s.WF) {k : ℚ} {h : Harmonic}
    (hget : s.get k = some h) : k = h.frequency ∧ h.Valid := by
  have hm := mapGet_mem hget
  exact ⟨hWF.2.1 _ hm, hWF.2.2 _ hm⟩

/-- One `transposeHarmonic` step on a stored harmonic with `r > 0`,
`r ≠ 1`: delete the old key, insert the transposed harmonic at the new
key. -/
theorem Spectrum.transposeHarmonic_spec {s : Spectrum} (hWF : s.WF) {h : Harmonic} {r : ℚ}
    (hget : s.get h.frequency = some h) (hr1 : r ≠ 1) :
    s.transposeHarmonic h r =
      .ok ⟨mapSet (mapDelete s.harmonics h.frequency) (h.frequency * r) (h.transpose r)⟩ := by
  have hv : h.Valid := (Spectrum.get_valid hWF hget).2
  have hf : h.frequency ≠ 0 := ne_of_gt hv.1
  have hne : ¬(h.frequency = (h.transpose r).frequency) := by
    rw [Harmonic.transpose_frequency]
    intro heq
    exact hr1 (mul_left_cancel₀ hf (by rw [mul_one]; exact heq)).symm
  unfold Spectrum.transposeHarmonic
  rw [hget]
  simp only [Harmonic.toTransposed_ok hv r, Harmonic.transpose_frequency]
  rw [if_neg (by simpa using hne)]

/-- Well-formedness is preserved by one transposition step. -/
theorem Spectrum.transposeHarmonic_step_WF {s : Spectrum} (hWF : s.WF) {h : Harmonic}
    {r : ℚ} (hv : h.Valid) (hr : 0 < r) :
    Spectrum.WF ⟨mapSet (mapDelete s.harmonics h.frequency) (h.frequency * r)
      (h.transpose r)⟩ := by
  refine ⟨nodup_keys_mapSet (nodup_keys_mapDelete hWF.1 _) _ _, ?_, ?_⟩
  · intro e he
    rcases mem_mapSet he with he | rfl
    · exact hWF.2.1 _ (mem_mapDelete he)
    · rfl
  · intro e he
    rcases mem_mapSet he with he | rfl
    · exact hWF.2.2 _ (mem_mapDelete he)
    · exact Harmonic.transpose_valid hv hr

/-- The collision-safety induction.  Processing a list of stored
harmonics whose pairwise frequencies satisfy the no-collision condition
(distinct old keys, and no earlier harmonic's *new* key equals a later
harmonic's *old* key) rekeys every processed harmonic, vacates every old
key not reoccupied, and leaves all other keys untouched.  For `r > 1`
the condition holds for the descending order, for `r < 1` for the
ascending order. -/
theorem transpose_fold_spec (r : ℚ) (hr0 : 0 < r) (hr1 : r ≠ 1) (hs : List Harmonic) :
    ∀ s : Spectrum, s.WF →
      List.Pairwise
        (fun a b => a.frequency ≠ b.frequency ∧ a.frequency * r ≠ b.frequency) hs →
      (∀ h ∈ hs, s.get h.frequency = some h) →
      ∃ s' : Spectrum,
        hs.foldlM (fun t h => t.transposeHarmonic h r) s = .ok s' ∧ s'.WF ∧
        (∀ h ∈ hs, s'.get (h.frequency * r) = some (h.transpose r)) ∧
        (∀ k : ℚ, (∃ h ∈ hs, k = h.frequency) → (∀ h ∈ hs, k ≠ h.frequency * r) →
          s'.get k = none) ∧
        (∀ k : ℚ, (∀ h ∈ hs, k ≠ h.frequency) → (∀ h ∈ hs, k ≠ h.frequency * r) →
          s'.get k = s.get k) := by
  induction hs with
  | nil =>
    intro s hWF _ _
    exact ⟨s, rfl, hWF, by simp, by simp, fun k _ _ => rfl⟩
  | cons h0 hs ih =>
    intro s hWF hpw hmem
    have hg0 : s.get h0.frequency = some h0 := hmem h0 (List.mem_cons_self h0 hs)
    have hv0 : h0.Valid := (Spectrum.get_valid hWF hg0).2
    have hf0 : (0 : ℚ) < h0.frequency := hv0.1
    have hpw1 : ∀ b ∈ hs, h0.frequency ≠ b.frequency ∧ h0.frequency * r ≠ b.frequency :=
      (List.pairwise_cons.1 hpw).1
    have hpw2 := (List.pairwise_cons.1 hpw).2
    have hstep := Spectrum.transposeHarmonic_spec hWF hg0 hr1
    have hs1WF : Spectrum.WF ⟨mapSet (mapDelete s.harmonics h0.frequency)
        (h0.frequency * r) (h0.transpose r)⟩ :=
      Spectrum.transposeHarmonic_step_WF hWF hv0 hr0
    have hs1get : ∀ k, (Spectrum.mk (mapSet (mapDelete s.harmonics h0.frequency)
        (h0.frequency * r) (h0.transpose r))).get k =
        if k = h0.frequency * r then some (h0.transpose r)
        else if k = h0.frequency then none else s.get k := by
      intro k
      show mapGet (mapSet (mapDelete s.harmonics h0.frequency) _ _) k = _
      rw [mapGet_mapSet, mapGet_mapDelete]
      rfl
    have hmem1 : ∀ h ∈ hs, (Spectrum.mk (mapSet (mapDelete s.harmonics h0.frequency)
        (h0.frequency * r) (h0.transpose r))).get h.frequency = some h := by
      intro h hh
      rw [hs1get, if_neg (Ne.symm (hpw1 h hh).2), if_neg (Ne.symm (hpw1 h hh).1)]
      exact hmem h (List.mem_cons_of_mem h0 hh)
    obtain ⟨s', hfold, hWF', hc1, hc2, hc3⟩ := ih _ hs1WF hpw2 hmem1
    refine ⟨s', ?_, hWF', ?_, ?_, ?_⟩
    · rw [List.foldlM_cons, hstep]
      exact hfold
    · intro h hh
      rcases List.mem_cons.1 hh with rfl | hh
      · rw [hc3 (h.frequency * r)
          (fun b hb => Ne.symm ((Ne.symm (hpw1 b hb).2)))
          (fun b hb => fun heq => (hpw1 b hb).1 (mul_right_cancel₀ (ne_of_gt hr0) heq))]
        rw [hs1get, if_pos rfl]
      · exact hc1 h hh
    · intro k hk hknew
      obtain ⟨h, hh, rfl⟩ := hk
      rcases List.mem_cons.1 hh with rfl | hh
      · rw [hc3 h.frequency
          (fun b hb => (hpw1 b hb).1)
          (fun b hb => hknew b (List.mem_cons_of_mem h hb))]
        rw [hs1get, if_neg (hknew h (List.mem_cons_self h hs)), if_pos rfl]
      · exact hc2 h.frequency ⟨h, hh, rfl⟩
          (fun b hb => hknew b (List.mem_cons_of_mem h0 hb))
    · intro k hkold hknew
      rw [hc3 k (fun b hb => hkold b (List.mem_cons_of_mem h0 hb))
        (fun b hb => hknew b (List.mem_cons_of_mem h0 hb))]
      rw [hs1get, if_neg (hknew h0 (List.mem_cons_self h0 hs)),
        if_neg (hkold h0 (List.mem_cons_self h0 hs))]

theorem Harmonic.transpose_one (v : Harmonic) : v.transpose 1 = v := by
  simp [Harmonic.transpose]

theorem Spectrum.hasKey_eq (s : Spectrum) (k : ℚ) : s.hasKey k = (s.get k).isSome := rfl

theorem Spectrum.mem_getHarmonics {s : Spectrum} {h : Harmonic} :
    h ∈ s.getHarmonics ↔ h ∈ s.harmonics.map Prod.snd :=
  List.mem_insertionSort _

theorem Spectrum.get_of_value_mem {s : Spectrum} (hWF : s.WF) {h : Harmonic}
    (hm : h ∈ s.harmonics.map Prod.snd) : s.get h.frequency = some h := by
  obtain ⟨e, he, rfl⟩ := List.mem_map.1 hm
  have hk := hWF.2.1 e he
  have heq : (e.2.frequency, e.2) = e := by
    cases e
    rw [← hk]
  exact mapGet_of_mem hWF.1 (heq ▸ he)

/-- Under well-formedness the sorted snapshot is strictly ascending by
frequency. -/
theorem Spectrum.getHarmonics_sorted {s : Spectrum} (hWF : s.WF) :
    List.Pairwise (fun a b : Harmonic => a.frequency < b.frequency) s.getHarmonics := by
  have hsorted : List.Pairwise Harmonic.freqLE s.getHarmonics :=
    List.sorted_insertionSort _ _
  have hkeys : s.harmonics.map Prod.fst = (s.harmonics.map Prod.snd).map Harmonic.frequency := by
    rw [List.map_map]
    exact List.map_congr_left (fun e he => hWF.2.1 e he)
  have hndv : ((s.harmonics.map Prod.snd).map Harmonic.frequency).Nodup := by
    rw [← hkeys]
    exact hWF.1
  have hperm : List.Perm s.getHarmonics (s.harmonics.map Prod.snd) :=
    List.perm_insertionSort _ _
  have hnd : (s.getHarmonics.map Harmonic.frequency).Nodup :=
    (hperm.map Harmonic.frequency).nodup_iff.2 hndv
  have hne : List.Pairwise (fun a b : Harmonic => a.frequency ≠ b.frequency) s.getHarmonics :=
    List.pairwise_map.1 hnd
  exact (hsorted.and hne).imp (fun hab => lt_of_le_of_ne hab.1 hab.2)

theorem Spectrum.getHarmonics_valid {s : Spectrum} (hWF : s.WF) {h : Harmonic}
    (hm : h ∈ s.getHarmonics) : h.Valid := by
  obtain ⟨e, he, rfl⟩ := List.mem_map.1 (Spectrum.mem_getHarmonics.1 hm)
  exact hWF.2.2 e he

/-- Conclusion of the fold in the terms of the external contract:
membership/pairwise assumptions on the processing order give the full
rekeying specification. -/
theorem transpose_fold_conclusion {s : Spectrum} (hWF : s.WF) {r : ℚ}
    (hr0 : 0 < r) (hr1 : r ≠ 1) {hs : List Harmonic}
    (hmm : ∀ h : Harmonic, h ∈ hs ↔ h ∈ s.harmonics.map Prod.snd)
    (hpw : List.Pairwise
      (fun a b => a.frequency ≠ b.frequency ∧ a.frequency * r ≠ b.frequency) hs) :
    ∃ s' : Spectrum,
      hs.foldlM (fun t h => t.transposeHarmonic h r) s = .ok s' ∧ s'.WF ∧
      (∀ k v, s.get k = some v → s'.get (k * r) = some (v.transpose r)) ∧
      (∀ k' : ℚ, s'.hasKey k' = true ↔ ∃ k, s.hasKey k = true ∧ k' = k * r) := by
  have hmem : ∀ h ∈ hs, s.get h.frequency = some h := fun h hh =>
    Spectrum.get_of_value_mem hWF ((hmm h).1 hh)
  obtain ⟨s', hfold, hWF', hc1, hc2, hc3⟩ :=
    transpose_fold_spec r hr0 hr1 hs s hWF hpw hmem
  refine ⟨s', hfold, hWF', ?_, ?_⟩
  · intro k v hget
    have hkv := Spectrum.get_valid hWF hget
    have hvm : v ∈ hs := (hmm v).2 (List.mem_map.2 ⟨(k, v), mapGet_mem hget, rfl⟩)
    rw [hkv.1]
    exact hc1 v hvm
  · intro k'
    constructor
    · intro hk'
      rw [Spectrum.hasKey_eq, Option.isSome_iff_exists] at hk'
      obtain ⟨v', hv'⟩ := hk'
      by_cases hnew : ∃ h ∈ hs, k' = h.frequency * r
      · obtain ⟨h, hh, rfl⟩ := hnew
        refine ⟨h.frequency, ?_, rfl⟩
        rw [Spectrum.hasKey_eq, hmem h hh]
        rfl
      · push_neg at hnew
        by_cases hold : ∃ h ∈ hs, k' = h.frequency
        · rw [hc2 k' hold hnew] at hv'
          exact absurd hv' (by simp)
        · rw [hc3 k' (fun h hh heq => hold ⟨h, hh, heq⟩) hnew] at hv'
          have hkv := Spectrum.get_valid hWF hv'
          have hvm : v' ∈ hs := (hmm v').2 (List.mem_map.2 ⟨(k', v'), mapGet_mem hv', rfl⟩)
          exact absurd ⟨v', hvm, hkv.1⟩ hold
    · rintro ⟨k, hk, rfl⟩
      rw [Spectrum.hasKey_eq, Option.isSome_iff_exists] at hk ⊢
      obtain ⟨v, hv⟩ := hk
      exact ⟨v.transpose r, by
        have hc := hc1 v ((hmm v).2 (List.mem_map.2 ⟨(k, v), mapGet_mem hv, rfl⟩))
        rw [(Spectrum.get_valid hWF hv).1]
        exact hc⟩

/-- Unpack the three guard agreements from `valueOfFaithful`. -/
theorem valueOfFaithful_spec {r : ℚ} (h : valueOfFaithful r = true) :
    fEq (valueOfQ r) (F.finite 1) = decide (r = 1) ∧
    fLe (valueOfQ r) (F.finite 0) = decide (r ≤ 0) ∧
    fLt (F.finite 1) (valueOfQ r) = decide (1 < r) := by
  unfold valueOfFaithful at h
  simp only [Bool.and_eq_true, beq_iff_eq] at h
  exact ⟨h.1.1, h.1.2, h.2⟩

/-- The full specification of `Spectrum.transpose` for `r > 0` on the
faithful-guard domain: it succeeds, preserves well-formedness, sends the
entry at key `k` to key `k * r` with amplitude and phase intact, and the
resulting key set is exactly the pointwise product of the old one with
`r`. -/
theorem Spectrum.transpose_ok {s : Spectrum} (hWF : s.WF) {r : ℚ} (hr : 0 < r)
    (hfa : valueOfFaithful r = true) :
    ∃ s' : Spectrum, s.transpose r = .ok s' ∧ s'.WF ∧
      (∀ k v, s.get k = some v → s'.get (k * r) = some (v.transpose r)) ∧
      (∀ k' : ℚ, s'.hasKey k' = true ↔ ∃ k, s.hasKey k = true ∧ k' = k * r) := by
  obtain ⟨hEq, hLe, hLt⟩ := valueOfFaithful_spec hfa
  by_cases hr1 : r = 1
  · subst hr1
    have hcond : fEq (valueOfQ 1) (F.finite 1) = true := by
      rw [hEq]
      exact decide_eq_true rfl
    refine ⟨s, by simp only [Spectrum.transpose]; rw [hcond, if_pos rfl], hWF, ?_, ?_⟩
    · intro k v hget
      rw [mul_one, hget, Harmonic.transpose_one]
    · intro k'
      simp [mul_one]
  · have hcond1 : fEq (valueOfQ r) (F.finite 1) = false := by
      rw [hEq]
      exact decide_eq_false hr1
    have hcond2 : fLe (valueOfQ r) (F.finite 0) = false := by
      rw [hLe]
      exact decide_eq_false (not_le.2 hr)
    by_cases h1r : 1 < r
    · -- transposing up: process the sorted snapshot from highest to lowest
      have hmm : ∀ h : Harmonic, h ∈ s.getHarmonics.reverse ↔
          h ∈ s.harmonics.map Prod.snd := by
        intro h
        rw [List.mem_reverse]
        exact Spectrum.mem_getHarmonics
      have hpw : List.Pairwise
          (fun a b : Harmonic => a.frequency ≠ b.frequency ∧ a.frequency * r ≠ b.frequency)
          s.getHarmonics.reverse := by
        rw [List.pairwise_reverse]
        refine List.Pairwise.imp_of_mem ?_ (Spectrum.getHarmonics_sorted hWF)
        intro a b ha hb hlt
        have hbpos : (0 : ℚ) < b.frequency := (Spectrum.getHarmonics_valid hWF hb).1
        have hbr : b.frequency < b.frequency * r :=
          (lt_mul_iff_one_lt_right hbpos).2 h1r
        exact ⟨Ne.symm (ne_of_lt hlt), ne_of_gt (lt_trans hlt hbr)⟩
      have hcond3 : fLt (F.finite 1) (valueOfQ r) = true := by
        rw [hLt]
        exact decide_eq_true h1r
      obtain ⟨s', hfold, hrest⟩ := transpose_fold_conclusion hWF hr hr1 hmm hpw
      refine ⟨s', ?_, hrest⟩
      simp only [Spectrum.transpose]
      rw [hcond1, hcond2, hcond3, if_neg Bool.false_ne_true, if_neg Bool.false_ne_true,
        if_pos rfl]
      exact hfold
    · -- transposing down: process the sorted snapshot from lowest to highest
      have hrlt : r < 1 := lt_of_le_of_ne (not_lt.1 h1r) hr1
      have hmm : ∀ h : Harmonic, h ∈ s.getHarmonics ↔ h ∈ s.harmonics.map Prod.snd :=
        fun _ => Spectrum.mem_getHarmonics
      have hpw : List.Pairwise
          (fun a b : Harmonic => a.frequency ≠ b.frequency ∧ a.frequency * r ≠ b.frequency)
          s.getHarmonics := by
        refine List.Pairwise.imp_of_mem ?_ (Spectrum.getHarmonics_sorted hWF)
        intro a b ha hb hlt
        have hapos : (0 : ℚ) < a.frequency := (Spectrum.getHarmonics_valid hWF ha).1
        have har : a.frequency * r < a.frequency := by
          have := (mul_lt_iff_lt_one_right hapos).2 hrlt
          exact this
        exact ⟨ne_of_lt hlt, ne_of_lt (lt_trans har hlt)⟩
      have hcond3 : fLt (F.finite 1) (valueOfQ r) = false := by
        rw [hLt]
        exact decide_eq_false h1r
      obtain ⟨s', hfold, hrest⟩ := transpose_fold_conclusion hWF hr hr1 hmm hpw
      refine ⟨s', ?_, hrest⟩
      simp only [Spectrum.transpose]
      rw [hcond1, hcond2, hcond3, if_neg Bool.false_ne_true, if_neg Bool.false_ne_true,
        if_neg Bool.false_ne_true]
      exact hfold

theorem mapSet_append {V : Type} {l : List (ℚ × V)} {k : ℚ} (hk : ∀ e ∈ l, e.1 ≠ k)
    (v : V) : mapSet l k v = l ++ [(k, v)] := by
  unfold mapSet
  rw [if_neg]
  simp only [List.any_eq_true, decide_eq_true_eq, not_exists, not_and]
  exact hk

/-- Rebuilding a well-formed store by cloning entry by entry reproduces
it behind any already-rebuilt disjoint prefix. -/
theorem clone_fold (l : List (ℚ × Harmonic)) :
    ∀ acc : List (ℚ × Harmonic),
      (∀ e ∈ l, e.1 = e.2.frequency) → (∀ e ∈ l, e.2.Valid) →
      (∀ e ∈ l, ∀ a ∈ acc, a.1 ≠ e.1) →
      (l.map Prod.fst).Nodup →
      List.foldlM (fun (t : Spectrum) (e : ℚ × Harmonic) => (e.2.clone).map t.addHarmonic)
        (Spectrum.mk acc) l = .ok ⟨acc ++ l⟩ := by
  induction l with
  | nil =>
    intro acc _ _ _ _
    simp [List.foldlM_nil]
    rfl
  | cons e l ih =>
    intro acc hkey hval hdisj hnd
    rw [List.foldlM_cons]
    have hc : e.2.clone = .ok e.2 :=
      Harmonic.validate_ok (hval e (List.mem_cons_self e l))
    rw [hc]
    have hset : mapSet acc e.2.frequency e.2 = acc ++ [e] := by
      have hk1 : ∀ a ∈ acc, a.1 ≠ e.2.frequency := by
        intro a ha
        rw [← hkey e (List.mem_cons_self e l)]
        exact hdisj e (List.mem_cons_self e l) a ha
      rw [mapSet_append hk1]
      have : (e.2.frequency, e.2) = e := by
        cases e
        rw [← hkey _ (List.mem_cons_self _ l)]
      rw [this]
    show List.foldlM _ ((Spectrum.mk acc).addHarmonic e.2) l = _
    rw [List.map_cons, List.nodup_cons] at hnd
    have hres := ih (acc ++ [e])
      (fun x hx => hkey x (List.mem_cons_of_mem e hx))
      (fun x hx => hval x (List.mem_cons_of_mem e hx))
      (by
        intro x hx a ha
        rcases List.mem_append.1 ha with ha | ha
        · exact hdisj x (List.mem_cons_of_mem e hx) a ha
        · have : a = e := by simpa using ha
          subst this
          intro heq
          exact hnd.1 (heq ▸ List.mem_map.2 ⟨x, hx, rfl⟩))
      hnd.2
    have haddH : (Spectrum.mk acc).addHarmonic e.2 = Spectrum.mk (acc ++ [e]) := by
      unfold Spectrum.addHarmonic
      rw [show (Spectrum.mk acc).harmonics = acc from rfl, hset]
    rw [haddH, hres]
    simp

/-- `clone` of a well-formed spectrum succeeds and reproduces it. -/
theorem Spectrum.clone_ok {s : Spectrum} (hWF : s.WF) : s.clone = .ok s := by
  unfold Spectrum.clone
  have := clone_fold s.harmonics [] hWF.2.1 hWF.2.2 (by simp) hWF.1
  simpa using this

/-! ### IntervalSet lemmas -/

theorem IntervalSet.mem_getRatios {s : IntervalSet} {q : ℚ} :
    q ∈ s.getRatios ↔ q ∈ s.ratios :=
  List.mem_insertionSort _

theorem IntervalSet.getRatios_length (s : IntervalSet) :
    s.getRatios.length = s.size :=
  (List.perm_insertionSort _ _).length_eq

theorem IntervalSet.getRatios_sorted {t : IntervalSet} (ht : t.WF) :
    List.Pairwise (fun a b : ℚ => a < b) t.getRatios := by
  have hsorted : List.Sorted (fun a b : ℚ => a ≤ b) t.getRatios :=
    List.sorted_insertionSort _ _
  have hnd : t.getRatios.Nodup := (List.perm_insertionSort _ _).nodup_iff.2 ht
  exact hsorted.lt_of_le hnd

theorem Spectrum.addHarmonic_get {s : Spectrum} (h : Harmonic) :
    (s.addHarmonic h).get h.frequency = some h := by
  show mapGet (mapSet s.harmonics h.frequency h) h.frequency = some h
  rw [mapGet_mapSet, if_pos rfl]

theorem Spectrum.addHarmonic_size_of_hasKey {s : Spectrum} {h : Harmonic}
    (hk : s.hasKey h.frequency = true) : (s.addHarmonic h).size = s.size := by
  have hany : s.harmonics.any (fun e => e.1 = h.frequency) = true := by
    rw [Spectrum.hasKey_eq, Option.isSome_iff_exists] at hk
    obtain ⟨v, hv⟩ := hk
    exact List.any_eq_true.2 ⟨(h.frequency, v), mapGet_mem hv, by simp⟩
  show (mapSet s.harmonics h.frequency h).length = s.harmonics.length
  unfold mapSet
  rw [if_pos hany, List.length_map]

theorem IntervalSet.toSweepIntervals_eq (t : IntervalSet) :
    t.toSweepIntervals = if t.getRatios.isEmpty then .ok [] else
      ((t.getRatios.zip t.getRatios.tail).mapM (fun p => fracDiv p.2 p.1)).map
        (fun steps => 1 :: steps) := rfl

/-- `mapM` over `Fraction.div` succeeds elementwise when no divisor is
zero. -/
theorem mapM_fracDiv_ok (l : List (ℚ × ℚ)) (hnz : ∀ p ∈ l, p.1 ≠ 0) :
    (l.mapM (fun p => fracDiv p.2 p.1)) =
      .ok (l.map (fun p : ℚ × ℚ => p.2 / p.1)) := by
  induction l with
  | nil => rfl
  | cons p l ih =>
    rw [List.mapM_cons]
    have hp : fracDiv p.2 p.1 = .ok (p.2 / p.1) := by
      unfold fracDiv
      rw [if_neg (hnz p (List.mem_cons_self p l))]
    rw [hp, ih (fun x hx => hnz x (List.mem_cons_of_mem p hx))]
    rfl

theorem zip_div_getElem :
    ∀ (l : List ℚ) (i : ℕ) (a b : ℚ), l[i]? = some a → l[i + 1]? = some b →
      ((l.zip l.tail).map (fun p : ℚ × ℚ => p.2 / p.1))[i]? = some (b / a) := by
  intro l
  induction l with
  | nil =>
    intro i a b ha _
    simp at ha
  | cons x l ih =>
    intro i a b ha hb
    cases l with
    | nil =>
      cases i with
      | zero => simp at hb
      | succ j => simp at ha
    | cons y l' =>
      cases i with
      | zero =>
        have hax : a = x := by simpa using ha.symm
        have hby : b = y := by simpa using hb.symm
        subst hax
        subst hby
        simp
      | succ j =>
        have ha' : (y :: l')[j]? = some a := by simpa using ha
        have hb' : (y :: l')[j + 1]? = some b := by simpa using hb
        have hres := ih j a b ha' hb'
        simpa using hres

-- Sanity checks.
example : (IntervalSet.ofList [6 / 4, 3 / 2]).size = 1 := by with_unfolding_all rfl

/-! ### The claims -/

/-- C1 counterexample: `transpose` branches on the lossy `valueOf()`
double of the ratio, not on the exact rational.  At
`r = (2^53+1)/2^53 > 1` the double conversion collides with `1.0`, so
the call silently no-ops: it succeeds, the old key `1` is still present,
and the key `r * 1` the claim demands is absent. -/
theorem spectrum_transpose_collision_safe_cex :
    (0 : ℚ) < (2 ^ 53 + 1) / 2 ^ 53 ∧
    ((2 ^ 53 + 1) / 2 ^ 53 : ℚ) ≠ 1 ∧
    (Spectrum.mk [(1, ⟨1, 1, 0⟩)]).transpose ((2 ^ 53 + 1) / 2 ^ 53) =
      .ok (Spectrum.mk [(1, ⟨1, 1, 0⟩)]) ∧
    (Spectrum.mk [(1, ⟨1, 1, 0⟩)]).hasKey ((2 ^ 53 + 1) / 2 ^ 53 * 1) = false ∧
    (Spectrum.mk [(1, ⟨1, 1, 0⟩)]).hasKey 1 = true := by
  refine ⟨by norm_num, by norm_num, by with_unfolding_all rfl,
    by with_unfolding_all rfl, by with_unfolding_all rfl⟩

/-- C1 (corrected): collision-safe transpose on the faithful-guard
domain.  For every well-formed spectrum and every rational ratio `r > 0`
whose `valueOf()` double compares against `0` and `1` exactly as `r`
itself does, `transpose(r)` succeeds, the set of canonical frequency
keys afterwards is exactly `{ r * f : f a key before }`, and each
transposed harmonic keeps its original amplitude and phase — no entry is
lost to a transient key collision, whether `r > 1`, `r = 1`, or
`r < 1`.  (Outside that domain the double guard no-ops on a collision
with `1.0`, throws on underflow to `0`, or picks the wrong processing
order on `NaN`.) -/
theorem spectrum_transpose_collision_safe (s : Spectrum) (r : ℚ)
    (hWF : s.WF) (hr : 0 < r) (hfa : valueOfFaithful r = true) :
    ∃ s' : Spectrum, s.transpose r = .ok s' ∧
      (∀ k' : ℚ, s'.hasKey k' = true ↔ ∃ f : ℚ, s.hasKey f = true ∧ k' = r * f) ∧
      (∀ (f : ℚ) (h : Harmonic), s.get f = some h →
        s'.get (r * f) = some ⟨r * f, h.amplitude, h.phase⟩) := by
  obtain ⟨s', h1, _, h3, h4⟩ := Spectrum.transpose_ok hWF hr hfa
  refine ⟨s', h1, ?_, ?_⟩
  · intro k'
    rw [h4 k']
    constructor
    · rintro ⟨f, hf, rfl⟩
      exact ⟨f, hf, mul_comm f r⟩
    · rintro ⟨f, hf, rfl⟩
      exact ⟨f, hf, mul_comm r f⟩
  · intro f h hget
    obtain ⟨fr, am, ph⟩ := h
    have hfr : f = fr := (Spectrum.get_valid hWF hget).1
    subst hfr
    have := h3 f _ hget
    rw [mul_comm r f]
    rw [this]
    unfold Harmonic.transpose
    rw [mul_comm f r]

/-- Witness for C1 at a concrete two-harmonic spectrum and ratio 2. -/
theorem spectrum_transpose_collision_safe_witness :
    ∃ s' : Spectrum,
      (Spectrum.mk [(1, ⟨1, 1, 0⟩), (2, ⟨2, 1, 0⟩)]).transpose 2 = .ok s' ∧
      (∀ k' : ℚ, s'.hasKey k' = true ↔
        ∃ f : ℚ, (Spectrum.mk [(1, ⟨1, 1, 0⟩), (2, ⟨2, 1, 0⟩)]).hasKey f = true ∧
          k' = 2 * f) ∧
      (∀ (f : ℚ) (h : Harmonic),
        (Spectrum.mk [(1, ⟨1, 1, 0⟩), (2, ⟨2, 1, 0⟩)]).get f = some h →
          s'.get (2 * f) = some ⟨2 * f, h.amplitude, h.phase⟩) :=
  spectrum_transpose_collision_safe _ 2 (by decide) (by decide)
    (by with_unfolding_all rfl)

/-- C2 counterexample: a failing `setFrequency` call does not leave the
harmonic exactly as it was — the invalid frequency is committed before
the validation throw, so the observable post-throw state differs from
the pre-call state. -/
theorem harmonic_setter_atomicity_cex :
    Harmonic.setFrequency ⟨1, 1, 0⟩ (-1) =
      .error ("Frequency must be positive", ⟨-1, 1, 0⟩) ∧
    (⟨-1, 1, 0⟩ : Harmonic) ≠ (⟨1, 1, 0⟩ : Harmonic) :=
  ⟨by with_unfolding_all rfl, by decide⟩

/-- C2 (corrected): `setAmplitude` and `setPhase` validate before
committing, so their failing calls leave the harmonic unchanged;
`setFrequency` commits the new frequency before validating, so its
failing calls leave the harmonic holding the invalid frequency. -/
theorem harmonic_setter_commit_behavior :
    (∀ (h : Harmonic) (a : ℚ), (a < 0 ∨ 1 < a) →
      h.setAmplitude a = .error ("Amplitude must be between 0 and 1", h)) ∧
    (∀ (h : Harmonic) (p : ℚ), (p < 0 ∨ twoPi ≤ p) →
      h.setPhase p = .error ("Phase must be between 0 and 2π", h)) ∧
    (∀ (h : Harmonic) (f : ℚ), f ≤ 0 →
      h.setFrequency f =
        .error ("Frequency must be positive", { h with frequency := f })) := by
  refine ⟨?_, ?_, ?_⟩
  · intro h a ha
    unfold Harmonic.setAmplitude
    rw [if_pos ha]
  · intro h p hp
    unfold Harmonic.setPhase
    rw [if_pos hp]
  · intro h f hf
    simp only [Harmonic.setFrequency]
    rw [if_pos hf]

/-- Witness for C2's amended statement at concrete failing setter calls. -/
theorem harmonic_setter_commit_behavior_witness :
    Harmonic.setAmplitude ⟨1, 1, 0⟩ 2 =
      .error ("Amplitude must be between 0 and 1", ⟨1, 1, 0⟩) ∧
    Harmonic.setFrequency ⟨1, 1, 0⟩ (-1) =
      .error ("Frequency must be positive", ⟨-1, 1, 0⟩) :=
  ⟨harmonic_setter_commit_behavior.1 ⟨1, 1, 0⟩ 2 (Or.inr (by decide)),
   harmonic_setter_commit_behavior.2.2 ⟨1, 1, 0⟩ (-1) (by decide)⟩

example : (IntervalSet.ofList [3, 1, 2]).getRatios = [1, 2, 3] := by with_unfolding_all rfl
example : (IntervalSet.ofList [1, 5/4, 3/2, 2]).toSweepIntervals =
    .ok [1, 5/4, 6/5, 4/3] := by
  with_unfolding_all rfl

/-- C4 counterexample: `Harmonic.transpose` performs no validation — at
ratio `-1` it succeeds (it is total) yet the result has frequency `-1`,
violating the strict-positivity invariant. -/
theorem harmonic_invariant_preservation_cex :
    ((⟨1, 1, 0⟩ : Harmonic).transpose (-1)).frequency = -1 ∧
    ¬((⟨1, 1, 0⟩ : Harmonic).transpose (-1)).Valid := by
  have heq : (⟨1, 1, 0⟩ : Harmonic).transpose (-1) = ⟨-1, 1, 0⟩ := by
    with_unfolding_all rfl
  rw [heq]
  exact ⟨rfl, by decide⟩

/-- C4 (corrected): construction, the setters, `scale` and `clone`
preserve the invariants, and `transpose`/`toTransposed` preserve them
when the ratio is positive; but `transpose` itself never validates, so
transposing by a non-positive ratio succeeds and breaks the frequency
invariant. -/
theorem harmonic_invariant_preservation :
    (∀ (f a p : ℚ) (h : Harmonic), Harmonic.make f a p = .ok h → h.Valid) ∧
    (∀ (h h' : Harmonic) (f : ℚ), h.Valid → h.setFrequency f = .ok h' → h'.Valid) ∧
    (∀ (h h' : Harmonic) (a : ℚ), h.Valid → h.setAmplitude a = .ok h' → h'.Valid) ∧
    (∀ (h h' : Harmonic) (p : ℚ), h.Valid → h.setPhase p = .ok h' → h'.Valid) ∧
    (∀ (h : Harmonic) (c : ℚ), h.Valid → (h.scale c).Valid) ∧
    (∀ h h' : Harmonic, h.clone = .ok h' → h'.Valid) ∧
    (∀ (h : Harmonic) (r : ℚ), h.Valid → 0 < r → (h.transpose r).Valid) ∧
    (∀ (h h' : Harmonic) (r : ℚ), h.Valid → 0 < r → h.toTransposed r = .ok h' →
      h'.Valid) := by
  refine ⟨?_, ?_, ?_, ?_, ?_, ?_, ?_, ?_⟩
  · intro f a p h hok
    obtain ⟨rfl, hv⟩ := Harmonic.valid_of_validate hok
    exact hv
  · intro h h' f hv hok
    simp only [Harmonic.setFrequency] at hok
    split_ifs at hok with hf
    all_goals first
      | exact Except.noConfusion hok
      | (cases hok
         exact ⟨lt_of_not_le hf, hv.2.1, hv.2.2.1, hv.2.2.2.1, hv.2.2.2.2⟩)
  · intro h h' a hv hok
    unfold Harmonic.setAmplitude at hok
    split_ifs at hok with ha
    all_goals first
      | exact Except.noConfusion hok
      | (cases hok
         push_neg at ha
         exact ⟨hv.1, ha.1, ha.2, hv.2.2.2.1, hv.2.2.2.2⟩)
  · intro h h' p hv hok
    unfold Harmonic.setPhase at hok
    split_ifs at hok with hp
    all_goals first
      | exact Except.noConfusion hok
      | (cases hok
         push_neg at hp
         exact ⟨hv.1, hv.2.1, hv.2.2.1, hp.1, hp.2⟩)
  · intro h c hv
    exact ⟨hv.1, le_max_left 0 _, max_le (by norm_num) (min_le_left 1 _),
      hv.2.2.2.1, hv.2.2.2.2⟩
  · intro h h' hok
    obtain ⟨rfl, hv⟩ := Harmonic.valid_of_validate hok
    exact hv
  · intro h r hv hr
    exact Harmonic.transpose_valid hv hr
  · intro h h' r hv hr hok
    rw [Harmonic.toTransposed_ok hv] at hok
    cases hok
    exact Harmonic.transpose_valid hv hr

/-- Witness for C4's amended statement: `scale` and a positive-ratio
`transpose` at concrete valid harmonics. -/
theorem harmonic_invariant_preservation_witness :
    ((⟨1, 1, 0⟩ : Harmonic).scale 5).Valid ∧
    ((⟨3, 1, 0⟩ : Harmonic).transpose 2).Valid :=
  ⟨harmonic_invariant_preservation.2.2.2.2.1 ⟨1, 1, 0⟩ 5 (by decide),
   harmonic_invariant_preservation.2.2.2.2.2.2.1 ⟨3, 1, 0⟩ 2 (by decide) (by decide)⟩

/-- C5 counterexample: the round trip is not defined for every `r ≠ 0` —
at `r = -1` the first `transpose` throws, so no spectrum is yielded at
all. -/
theorem spectrum_transpose_round_trip_cex :
    ((Spectrum.mk [(1, ⟨1, 1, 0⟩)]).clone.bind
        (fun t => (t.transpose (-1)).bind (fun u => u.transpose (-1)⁻¹))) =
      .error "Ratio must be greater than 0" := by
  with_unfolding_all rfl

/-- C5 (corrected): the transpose round trip restricted to ratios the
guards handle faithfully — for every well-formed spectrum `S` and every
`r > 0` such that the `valueOf()` doubles of both `r` and `1/r` compare
against `0` and `1` exactly as the rationals do,
`S.clone().transpose(r).transpose(1/r)` succeeds and yields a spectrum
whose set of canonical frequency keys equals that of `S`.  (For `r ≤ 0`
the first transpose throws; for ratios whose double conversion underflows
to `0` or collides with `1.0` the source throws or no-ops instead.) -/
theorem spectrum_transpose_round_trip (s : Spectrum) (r : ℚ)
    (hWF : s.WF) (hr : 0 < r) (hfa : valueOfFaithful r = true)
    (hfainv : valueOfFaithful r⁻¹ = true) :
    ∃ s1 s2 s3 : Spectrum, s.clone = .ok s1 ∧ s1.transpose r = .ok s2 ∧
      s2.transpose r⁻¹ = .ok s3 ∧
      ∀ k : ℚ, s3.hasKey k = true ↔ s.hasKey k = true := by
  have hclone := Spectrum.clone_ok hWF
  obtain ⟨s2, ht2, hWF2, _, hk2⟩ := Spectrum.transpose_ok hWF hr hfa
  obtain ⟨s3, ht3, _, _, hk3⟩ := Spectrum.transpose_ok hWF2 (inv_pos.2 hr) hfainv
  refine ⟨s, s2, s3, hclone, ht2, ht3, ?_⟩
  intro k
  rw [hk3 k]
  constructor
  · rintro ⟨k2, hk2', rfl⟩
    rw [hk2 k2] at hk2'
    obtain ⟨f, hf, rfl⟩ := hk2'
    rwa [mul_assoc, mul_inv_cancel₀ (ne_of_gt hr), mul_one]
  · intro hk
    refine ⟨k * r, (hk2 (k * r)).2 ⟨k, hk, rfl⟩, ?_⟩
    rw [mul_assoc, mul_inv_cancel₀ (ne_of_gt hr), mul_one]

/-- Witness for C5's amended statement at a concrete spectrum and
ratio 2. -/
theorem spectrum_transpose_round_trip_witness :
    ∃ s1 s2 s3 : Spectrum,
      (Spectrum.mk [(1, ⟨1, 1, 0⟩), (2, ⟨2, 1, 0⟩)]).clone = .ok s1 ∧
      s1.transpose 2 = .ok s2 ∧ s2.transpose 2⁻¹ = .ok s3 ∧
      ∀ k : ℚ, s3.hasKey k = true ↔
        (Spectrum.mk [(1, ⟨1, 1, 0⟩), (2, ⟨2, 1, 0⟩)]).hasKey k = true :=
  spectrum_transpose_round_trip _ 2 (by decide) (by decide)
    (by with_unfolding_all rfl) (by with_unfolding_all rfl)

/-- C7 (confirmed): canonical dedup with last write wins.  Inputs with
equal canonical reduced-fraction identities occupy the same entry:
`IntervalSet(['6/4','3/2'])` has size 1; re-adding a harmonic at an
existing canonical key replaces the stored entry without growing the
container; and adding at `'6/4'` then `'3/2'` leaves one entry carrying
the second write's amplitude and phase. -/
theorem canonical_dedup_last_write_wins :
    (IntervalSet.ofList [6 / 4, 3 / 2]).size = 1 ∧
    (∀ (s : Spectrum) (h : Harmonic), (s.addHarmonic h).get h.frequency = some h) ∧
    (∀ (s : Spectrum) (h : Harmonic), s.hasKey h.frequency = true →
      (s.addHarmonic h).size = s.size) ∧
    (∃ s' : Spectrum,
      ((Spectrum.mk []).add (6 / 4) (1 / 2) 0).bind
          (fun t => t.add (3 / 2) (1 / 3) 1) = .ok s' ∧
        s'.size = 1 ∧ s'.get (3 / 2) = some ⟨3 / 2, 1 / 3, 1⟩) := by
  refine ⟨by with_unfolding_all rfl, ?_, ?_, ?_⟩
  · intro s h
    exact Spectrum.addHarmonic_get h
  · intro s h hk
    exact Spectrum.addHarmonic_size_of_hasKey hk
  · exact ⟨⟨[(3 / 2, ⟨3 / 2, 1 / 3, 1⟩)]⟩, by with_unfolding_all rfl,
      by with_unfolding_all rfl, by with_unfolding_all rfl⟩

/-- Witness for C7's replace clause at a concrete occupied key. -/
theorem canonical_dedup_last_write_wins_witness :
    ((Spectrum.mk [(2, ⟨2, 1, 0⟩)]).addHarmonic ⟨2, 0, 1⟩).size =
      (Spectrum.mk [(2, ⟨2, 1, 0⟩)]).size :=
  canonical_dedup_last_write_wins.2.2.1 (Spectrum.mk [(2, ⟨2, 1, 0⟩)]) ⟨2, 0, 1⟩
    (by decide)

/-- C8 (confirmed): sorted snapshot invariant — `getRatios()` is
strictly ascending by exact rational value and `getHarmonics()` is
strictly ascending by rational frequency, for every well-formed
container regardless of insertion order. -/
theorem sorted_snapshot_invariant (t : IntervalSet) (s : Spectrum)
    (ht : t.WF) (hs : s.WF) :
    List.Pairwise (fun a b : ℚ => a < b) t.getRatios ∧
    List.Pairwise (fun a b : Harmonic => a.frequency < b.frequency) s.getHarmonics :=
  ⟨IntervalSet.getRatios_sorted ht, Spectrum.getHarmonics_sorted hs⟩

/-- Witness for C8 at containers populated out of order. -/
theorem sorted_snapshot_invariant_witness :
    List.Pairwise (fun a b : ℚ => a < b) (IntervalSet.mk [3, 1, 2]).getRatios ∧
    List.Pairwise (fun a b : Harmonic => a.frequency < b.frequency)
      (Spectrum.mk [(2, ⟨2, 1, 0⟩), (1, ⟨1, 1, 0⟩)]).getHarmonics :=
  sorted_snapshot_invariant _ _ (by decide) (by decide)

/-- C9 (confirmed): frequency-only lookup — `get`, `has` and `remove`
with a `Harmonic` argument resolve the entry by the canonical frequency
key alone; the argument's amplitude and phase are ignored, so `has`
answers true whenever any harmonic with the same reduced frequency is
stored (even with different amplitude or phase), `get` returns that
stored harmonic, and `remove` removes it while leaving every other key
untouched. -/
theorem spectrum_lookup_by_frequency (s : Spectrum) (h g : Harmonic) (k : ℚ)
    (hWF : s.WF) (hmem : (k, g) ∈ s.harmonics) (hfreq : g.frequency = h.frequency) :
    s.getByHarmonic h = s.get h.frequency ∧
    s.hasByHarmonic h = s.hasKey h.frequency ∧
    s.removeByHarmonic h = s.removeKey h.frequency ∧
    s.hasByHarmonic h = true ∧
    s.getByHarmonic h = some g ∧
    (s.removeByHarmonic h).get k = none ∧
    (∀ k' : ℚ, k' ≠ h.frequency → (s.removeByHarmonic h).get k' = s.get k') := by
  have hk : k = g.frequency := hWF.2.1 (k, g) hmem
  have hget : s.get k = some g := mapGet_of_mem hWF.1 hmem
  have hgetf : s.get h.frequency = some g := by
    rw [← hfreq, ← hk]
    exact hget
  refine ⟨rfl, rfl, rfl, ?_, ?_, ?_, ?_⟩
  · show s.hasKey h.frequency = true
    rw [Spectrum.hasKey_eq]
    show (s.get h.frequency).isSome = true
    rw [hgetf]
    rfl
  · exact hgetf
  · show mapGet (mapDelete s.harmonics h.frequency) k = none
    rw [mapGet_mapDelete, if_pos (by rw [hk, hfreq])]
  · intro k' hk'
    show mapGet (mapDelete s.harmonics h.frequency) k' = s.get k'
    rw [mapGet_mapDelete, if_neg hk']
    rfl

/-- Witness for C9: the stored harmonic and the query harmonic share a
frequency but differ in amplitude and phase. -/
theorem spectrum_lookup_by_frequency_witness :
    (Spectrum.mk [(2, ⟨2, 1, 0⟩)]).getByHarmonic ⟨2, 0, 1⟩ =
        (Spectrum.mk [(2, ⟨2, 1, 0⟩)]).get 2 ∧
    (Spectrum.mk [(2, ⟨2, 1, 0⟩)]).hasByHarmonic ⟨2, 0, 1⟩ =
        (Spectrum.mk [(2, ⟨2, 1, 0⟩)]).hasKey 2 ∧
    (Spectrum.mk [(2, ⟨2, 1, 0⟩)]).removeByHarmonic ⟨2, 0, 1⟩ =
        (Spectrum.mk [(2, ⟨2, 1, 0⟩)]).removeKey 2 ∧
    (Spectrum.mk [(2, ⟨2, 1, 0⟩)]).hasByHarmonic ⟨2, 0, 1⟩ = true ∧
    (Spectrum.mk [(2, ⟨2, 1, 0⟩)]).getByHarmonic ⟨2, 0, 1⟩ = some ⟨2, 1, 0⟩ ∧
    ((Spectrum.mk [(2, ⟨2, 1, 0⟩)]).removeByHarmonic ⟨2, 0, 1⟩).get 2 = none ∧
    (∀ k' : ℚ, k' ≠ (⟨2, 0, 1⟩ : Harmonic).frequency →
      ((Spectrum.mk [(2, ⟨2, 1, 0⟩)]).removeByHarmonic ⟨2, 0, 1⟩).get k' =
        (Spectrum.mk [(2, ⟨2, 1, 0⟩)]).get k') :=
  spectrum_lookup_by_frequency (Spectrum.mk [(2, ⟨2, 1, 0⟩)]) ⟨2, 0, 1⟩ ⟨2, 1, 0⟩ 2
    (by decide) (by decide) (by decide)

/-- C10 counterexample: `Fraction.div` throws on a zero divisor, and
`IntervalSet.add` accepts `0`, so the set `{0, 2}` is reachable and
`toSweepIntervals` throws `Division by Zero` on it — no 2-element list
is returned as the claim requires for every non-empty set. -/
theorem intervalset_sweep_intervals_cex :
    (IntervalSet.mk [0, 2]).size = 2 ∧
    (IntervalSet.mk [0, 2]).toSweepIntervals = .error "Division by Zero" :=
  ⟨rfl, by with_unfolding_all rfl⟩

/-- C10 (corrected): sweep-interval edge cases — an empty set yields the
empty list (not `[1]`); a non-empty set of size `n` in which no step's
left neighbour is the ratio `0` yields exactly `n` fractions whose first
element is 1 and whose element at position `i ≥ 1` is the `i`-th sorted
ratio divided by the `(i-1)`-th; with a zero left neighbour the
underlying `Fraction.div` throws instead. -/
theorem intervalset_sweep_intervals (t : IntervalSet) :
    (t.size = 0 → t.toSweepIntervals = .ok []) ∧
    (t.size ≠ 0 → (∀ p ∈ t.getRatios.zip t.getRatios.tail, p.1 ≠ 0) →
      ∃ l : List ℚ, t.toSweepIntervals = .ok l ∧
        l.length = t.size ∧
        l.head? = some 1 ∧
        (∀ (i : ℕ) (a b : ℚ), t.getRatios[i]? = some a →
          t.getRatios[i + 1]? = some b →
          l[i + 1]? = some (b / a))) := by
  constructor
  · intro h0
    have hnil : t.getRatios = [] := by
      rw [← List.length_eq_zero, IntervalSet.getRatios_length]
      exact h0
    rw [IntervalSet.toSweepIntervals_eq, hnil]
    rfl
  · intro hne hnz
    have hlen : t.getRatios.length = t.size := IntervalSet.getRatios_length t
    have hempty : t.getRatios.isEmpty = false := by
      rw [List.isEmpty_eq_false]
      intro hnil
      rw [hnil] at hlen
      exact hne hlen.symm
    refine ⟨1 :: (t.getRatios.zip t.getRatios.tail).map (fun p : ℚ × ℚ => p.2 / p.1),
      ?_, ?_, rfl, ?_⟩
    · rw [IntervalSet.toSweepIntervals_eq, hempty]
      simp only [Bool.false_eq_true, if_false]
      rw [mapM_fracDiv_ok _ hnz]
      rfl
    · simp only [List.length_cons, List.length_map, List.length_zip, List.length_tail]
      omega
    · intro i a b ha hb
      simp only [List.getElem?_cons_succ]
      exact zip_div_getElem t.getRatios i a b ha hb

/-- Witness for C10's non-empty branch at a concrete two-element set
with nonzero ratios. -/
theorem intervalset_sweep_intervals_witness :
    ∃ l : List ℚ, (IntervalSet.mk [1, 2]).toSweepIntervals = .ok l ∧
      l.length = (IntervalSet.mk [1, 2]).size ∧
      l.head? = some 1 ∧
      (∀ (i : ℕ) (a b : ℚ), (IntervalSet.mk [1, 2]).getRatios[i]? = some a →
        (IntervalSet.mk [1, 2]).getRatios[i + 1]? = some b →
        l[i + 1]? = some (b / a)) :=
  (intervalset_sweep_intervals (IntervalSet.mk [1, 2])).2 (by decide) (by decide)

end TuningCore
